import Mathlib

/-!
Verification of the creative-filename resolution engine of `src/backend/matching.py`
(the `rename` repository).

Strings are modelled as Lean `String`s (in this toolchain a structure over
`List Char`); all character-level operations work on `List Char`.  Python's
`str.lower` is modelled by `Char.toLower` (ASCII case mapping), Python's
whitespace class (for `str.strip`, `str.split`, and the regex class `\s`) by the
six ASCII whitespace characters, and Python's word-character class `\w` (for the
regex boundary `\b`) by `[a-zA-Z0-9_]`.  Scores (Python floats in `[0, 100]`)
are modelled as exact rationals.
-/

/- Rational arithmetic must evaluate inside `decide`/`rfl` proofs; the
Batteries definitions are `@[irreducible]`, which only affects elaboration,
not kernel soundness, so lowering them to `semireducible` is safe. -/
set_option allowUnsafeReducibility true in
attribute [semireducible] Rat.mul Rat.add Rat.sub Rat.inv

namespace Rename

/-- Python whitespace for `str.strip` / `str.split` / regex `\s` (ASCII part). -/
def pySpace (c : Char) : Bool :=
  c == ' ' || c == '\t' || c == '\n' || c == '\x0d' || c == '\x0b' || c == '\x0c'

/-- The separator characters replaced by a space in `normalize` (`" _-."`). -/
def isSep (c : Char) : Bool :=
  c == ' ' || c == '_' || c == '-' || c == '.'

/-- Python `s.lower()` on the character list (ASCII case mapping). -/
def lowerChars (l : List Char) : List Char :=
  l.map Char.toLower

/-- Python `s.strip()`: drop leading and trailing whitespace. -/
def stripList (l : List Char) : List Char :=
  ((l.dropWhile pySpace).reverse.dropWhile pySpace).reverse

/-- The four `s.replace(c, " ")` calls of `normalize`, fused into one map. -/
def replaceSeps (l : List Char) : List Char :=
  l.map (fun c => if isSep c then ' ' else c)

/-- Python `s.split()` (split on whitespace runs, dropping empty pieces):
worker with an accumulator holding the current word reversed. -/
def splitWsGo : List Char → List Char → List (List Char)
  | [], cur => if cur.isEmpty then [] else [cur.reverse]
  | c :: t, cur =>
    if pySpace c then
      if cur.isEmpty then splitWsGo t [] else cur.reverse :: splitWsGo t []
    else
      splitWsGo t (c :: cur)

/-- Python `s.split()` on a character list. -/
def splitWs (l : List Char) : List (List Char) :=
  splitWsGo l []

/-- Python `" ".join(words)` on character lists. -/
def joinSpace : List (List Char) → List Char
  | [] => []
  | [w] => w
  | w :: ws => w ++ ' ' :: joinSpace ws

/-- `normalize` of `src/backend/matching.py` on a character list:
lower, strip, replace each of `" _-."` by a space, collapse whitespace runs. -/
def normalizeL (l : List Char) : List Char :=
  joinSpace (splitWs (replaceSeps (stripList (lowerChars l))))

/-- `normalize` of `src/backend/matching.py` (empty and non-string inputs both
give `""` in the source; non-strings do not arise in the typed model). -/
def normalize (s : String) : String :=
  ⟨normalizeL s.data⟩

/-- Boolean test that `need` is an initial segment of `hay`. -/
def startsWithL : List Char → List Char → Bool
  | [], _ => true
  | _ :: _, [] => false
  | a :: as, b :: bs => a == b && startsWithL as bs

/-- Python `need in hay` (substring containment) on character lists. -/
def containsB (hay need : List Char) : Bool :=
  match hay with
  | [] => startsWithL need []
  | _ :: t => startsWithL need hay || containsB t need

/-- ASCII decimal digit (regex `\d`, ASCII part). -/
def isDigitB (c : Char) : Bool :=
  '0' ≤ c && c ≤ '9'

/-- Take exactly `n` leading digits; `none` if fewer are available. -/
def takeDigitsN (l : List Char) (n : Nat) : Option (List Char × List Char) :=
  let pre := l.take n
  if pre.length == n && pre.all isDigitB then some (pre, l.drop n) else none

/-- Tail of the size regex `\s*[xX]\s*\d{2,4}` after the first digit group,
returning the matched characters (the second digit group greedy: 4, 3, then 2). -/
def sizeTail (l : List Char) : Option (List Char) :=
  let ws1 := l.takeWhile pySpace
  match l.dropWhile pySpace with
  | [] => none
  | c :: r2 =>
    if c == 'x' || c == 'X' then
      let ws2 := r2.takeWhile pySpace
      let r3 := r2.dropWhile pySpace
      match takeDigitsN r3 4 <|> takeDigitsN r3 3 <|> takeDigitsN r3 2 with
      | some (d2, _) => some (ws1 ++ c :: (ws2 ++ d2))
      | none => none
    else none

/-- Try the size regex at this position with a first digit group of length `n`. -/
def sizeAtLen (l : List Char) (n : Nat) : Option (List Char) :=
  match takeDigitsN l n with
  | some (d1, rest) => (sizeTail rest).map (d1 ++ ·)
  | none => none

/-- Match of `_SIZE_RE` (`\d{2,4}\s*[xX]\s*\d{2,4}`) anchored at this position,
with the greedy/backtracking order of the Python regex engine (4, 3, 2). -/
def sizeAt (l : List Char) : Option (List Char) :=
  sizeAtLen l 4 <|> sizeAtLen l 3 <|> sizeAtLen l 2

/-- `_SIZE_RE.search`: leftmost match of the size pattern. -/
def searchSize : List Char → Option (List Char)
  | [] => none
  | c :: t => sizeAt (c :: t) <|> searchSize t

/-- `_normalize_size` of `src/backend/matching.py`: first size match with its
whitespace removed (`re.sub(r"\s+", "", part)`) and lower-cased; else `""`. -/
def normalize_size (l : List Char) : List Char :=
  match searchSize l with
  | some m => lowerChars (m.filter (fun c => !pySpace c))
  | none => []

/-- Regex `[^a-z0-9]` removal (`re.sub(r"[^a-z0-9]", "", word)`). -/
def cleanWord (w : List Char) : List Char :=
  w.filter (fun c => ('a' ≤ c && c ≤ 'z') || ('0' ≤ c && c ≤ '9'))

/-- First-occurrence deduplication, modelling Python `set` construction
(only membership and cardinality of the sets are ever used). -/
def dedupL : List (List Char) → List (List Char)
  | [] => []
  | w :: t => if w ∈ t then dedupL t else w :: dedupL t

/-- `_creative_id_tokens` of `src/backend/matching.py`: cleaned words of the
normalized string with length at least 6, as a set. -/
def creative_id_tokens (l : List Char) : List (List Char) :=
  dedupL (((splitWs (normalizeL l)).map cleanWord).filter (fun w => 6 ≤ w.length))

/-- The stoplist of `_primary_creative_token`. -/
def stoplist : List (List Char) :=
  ["display".data, "ads".data, "p4".data, "p04".data, "fr".data, "benl".data,
   "befr".data, "online".data, "ondersteuning".data, "vl".data]

/-- Python `max(candidates, key=len)` over words: the first word of maximal
length (later words replace the running best only when strictly longer). -/
def maxByLen : List (List Char) → Option (List Char)
  | [] => none
  | w :: t => some (t.foldl (fun best x => if best.length < x.length then x else best) w)

/-- `_primary_creative_token` of `src/backend/matching.py`. -/
def primary_creative_token (file_stem : List Char) : Option (List Char) :=
  let main_part := stripList (file_stem.takeWhile (fun c => c ≠ '('))
  let file_n := normalizeL main_part
  let size_norm := normalize_size file_stem
  let candidates := ((splitWs file_n).map cleanWord).filter (fun clean =>
    5 ≤ clean.length && clean ≠ size_norm &&
    !(clean.length != 0 && clean.all isDigitB) && clean ∉ stoplist)
  maxByLen candidates

/-- Python word character (regex `\w`, ASCII part): `[a-zA-Z0-9_]`. -/
def wordChar (c : Char) : Bool :=
  ('a' ≤ c && c ≤ 'z') || ('A' ≤ c && c ≤ 'Z') || ('0' ≤ c && c ≤ '9') || c == '_'

/-- Word boundary after a literal that ends in a word character: the rest of
the string is empty or starts with a non-word character. -/
def boundaryAfter : List Char → Bool
  | [] => true
  | c :: _ => !wordChar c

/-- Word boundary before a literal that starts with a word character: at the
start of the string or after a non-word character. -/
def boundaryBefore : Option Char → Bool
  | none => true
  | some c => !wordChar c

/-- Regex search of a literal `lit` with an optional word boundary `\b` required
before (`pre`) and after (`post`) it; scans positions left to right carrying the
previous character for the leading boundary test. -/
def hasPatGo (lit : List Char) (pre post : Bool) : Option Char → List Char → Bool
  | prev, [] =>
    (!pre || boundaryBefore prev) && startsWithL lit [] &&
      (!post || boundaryAfter (List.drop lit.length []))
  | prev, c :: t =>
    ((!pre || boundaryBefore prev) && startsWithL lit (c :: t) &&
      (!post || boundaryAfter ((c :: t).drop lit.length))) ||
    hasPatGo lit pre post (some c) t

/-- Regex search of a literal with optional surrounding word boundaries. -/
def hasPat (hay lit : List Char) (pre post : Bool) : Bool :=
  hasPatGo lit pre post none hay

/-- `_region_from_file_stem` of `src/backend/matching.py`; the alternations of
the three `re.search` calls are expanded into per-literal searches (for a pure
existence test the alternation order is irrelevant). -/
def region_from_file_stem (file_stem : List Char) : Option (List Char) :=
  let s := lowerChars file_stem
  if containsB s "befr".data then some "befr".data
  else if containsB s "benl".data then some "benl".data
  else if hasPat s "p4/fr".data false false || hasPat s "/fr".data false true ||
          hasPat s "_fr".data false true || hasPat s "-fr".data false true ||
          hasPat s "fr".data true true then some "befr".data
  else if hasPat s "p4/vl".data false false || hasPat s "/vl".data false true ||
          hasPat s "_vl".data false true || hasPat s "-vl".data false true ||
          hasPat s "vl".data true true then some "benl".data
  else if hasPat s "/nl".data false true || hasPat s "_nl".data false true ||
          hasPat s "-nl".data false true || hasPat s "nl".data true true then
    some "benl".data
  else none

/-- Python `min` on two rationals (kernel-reducible). -/
def qmin (a b : ℚ) : ℚ := if a ≤ b then a else b

/-- Python `max` on two rationals (kernel-reducible). -/
def qmax (a b : ℚ) : ℚ := if a ≤ b then b else a

/-- One row update of the longest-common-subsequence dynamic program:
`diag` is the previous row's entry one step left, `left` the entry just
computed in the current row. -/
def lcsRowAux (c : Char) : List Char → List Nat → Nat → Nat → List Nat
  | [], _, _, _ => []
  | _ :: _, [], _, _ => []
  | bj :: bs, pj :: ps, diag, left =>
    let nj := if c == bj then diag + 1 else max left pj
    nj :: lcsRowAux c bs ps pj nj

/-- Next row of the LCS table for one more character of the first string. -/
def lcsRow (c : Char) (b : List Char) (prev : List Nat) : List Nat :=
  0 :: lcsRowAux c b (prev.drop 1) (prev.headD 0) 0

/-- Length of the longest common subsequence (row dynamic program). -/
def lcsDP (a b : List Char) : Nat :=
  (a.foldl (fun prev c => lcsRow c b prev) (List.replicate (b.length + 1) 0)).getLastD 0

/-- Normalized indel similarity scaled to 0–100 (rapidfuzz `ratio`):
`100 * (1 - dist / (|a| + |b|))` with `dist = |a| + |b| - 2 * lcs a b`. -/
def indelSim (a b : List Char) : ℚ :=
  if a.length + b.length = 0 then 100
  else 200 * (lcsDP a b : ℚ) / ((a.length + b.length : ℕ) : ℚ)

/-- Python string `<` (lexicographic by code point) as a Bool. -/
def lexLt : List Char → List Char → Bool
  | [], [] => false
  | [], _ :: _ => true
  | _ :: _, [] => false
  | a :: as, b :: bs => a < b || (a == b && lexLt as bs)

/-- Insertion into a `lexLt`-sorted list. -/
def insertLex (w : List Char) : List (List Char) → List (List Char)
  | [] => [w]
  | x :: t => if lexLt w x then w :: x :: t else x :: insertLex w t

/-- Python `sorted` on a list of strings (insertion sort by `lexLt`). -/
def sortLex : List (List Char) → List (List Char)
  | [] => []
  | w :: t => insertLex w (sortLex t)

/-- Modelled from the spec: the similarity of §4.4, "the standard 'token set'
similarity used in fuzzy string matching" — `fuzz.token_set_ratio` of the
external rapidfuzz library imported by `src/backend/matching.py` (the library
itself is not part of the repository).  Both strings are split into token sets;
if one set's tokens all occur in the other (with a non-empty intersection) the
score is 100; otherwise it is the maximum of three indel similarities: joined
intersection-plus-differences against each other (their distance equals that of
the joined sorted difference sets, normalized over the two full lengths), and
the joined intersection against each intersection-plus-difference. -/
def token_set_score (a b : List Char) : ℚ :=
  let tokens_a := dedupL (splitWs a)
  let tokens_b := dedupL (splitWs b)
  if tokens_a.isEmpty || tokens_b.isEmpty then 0
  else
    let intersect := tokens_a.filter (fun w => w ∈ tokens_b)
    let diff_ab := tokens_a.filter (fun w => w ∉ tokens_b)
    let diff_ba := tokens_b.filter (fun w => w ∉ tokens_a)
    if !intersect.isEmpty && (diff_ab.isEmpty || diff_ba.isEmpty) then 100
    else
      let abJ := joinSpace (sortLex diff_ab)
      let baJ := joinSpace (sortLex diff_ba)
      let sectLen := (joinSpace intersect).length
      let bonus1 : Nat := if sectLen = 0 then 0 else 1
      let sect_ab_len := sectLen + bonus1 + abJ.length
      let sect_ba_len := sectLen + bonus1 + baJ.length
      let dist := abJ.length + baJ.length - 2 * lcsDP abJ baJ
      let result : ℚ :=
        if sect_ab_len + sect_ba_len = 0 then 100
        else 100 - 100 * (dist : ℚ) / ((sect_ab_len + sect_ba_len : ℕ) : ℚ)
      if sectLen = 0 then result
      else
        let rab : ℚ := 100 - 100 * ((1 + abJ.length : ℕ) : ℚ) /
          ((sectLen + sect_ab_len : ℕ) : ℚ)
        let rba : ℚ := 100 - 100 * ((1 + baJ.length : ℕ) : ℚ) /
          ((sectLen + sect_ba_len : ℕ) : ℚ)
        qmax result (qmax rab rba)

/-- `_anchor_bonus` of `src/backend/matching.py`: 0–15 bonus from size match
and creative-ID-token overlap. -/
def anchor_bonus (file_stem choice : List Char) : ℚ :=
  let file_size := normalize_size file_stem
  let choice_size := normalize_size choice
  let file_ids := creative_id_tokens file_stem
  let choice_ids := creative_id_tokens choice
  let b1 : ℚ := if !file_size.isEmpty && !choice_size.isEmpty && file_size == choice_size then 8 else 0
  let overlap := (file_ids.filter (fun w => w ∈ choice_ids)).length
  let b2 : ℚ := if 0 < overlap then qmin 7 ((7 : ℚ) / 2 * (overlap : ℚ)) else 0
  b1 + b2

/-- Python `round` to the nearest integer, ties to the even integer. -/
def pyRound (q : ℚ) : ℤ :=
  let f := q.floor
  let r := q - (f : ℚ)
  if r < 1 / 2 then f
  else if 1 / 2 < r then f + 1
  else if f % 2 = 0 then f else f + 1

/-- Python `round(x, 1)`: round to one decimal place. -/
def round1 (q : ℚ) : ℚ :=
  ((pyRound (10 * q) : ℤ) : ℚ) / 10

/-- The list `choices_clean` of `find_best_match`: each canonical name paired
with its normalized form (normalized form first, original second). -/
def choicesClean (choices : List String) : List (List Char × String) :=
  choices.map (fun c => (normalizeL c.data, c))

/-- Step 2 of `find_best_match`: restrict to choices containing the primary
creative token; `none` models the early `return None, 0.0`. -/
def primaryFilter (file_stem : String) (cc : List (List Char × String)) :
    Option (List (List Char × String)) :=
  match primary_creative_token file_stem.data with
  | none => some cc
  | some p =>
    let subset := cc.filter (fun q => containsB (lowerChars q.2.data) p)
    if subset.isEmpty then none else some subset

/-- Step 2b of `find_best_match`: restrict by detected region. -/
def regionFilter (file_stem : String) (cc : List (List Char × String)) :
    Option (List (List Char × String)) :=
  match region_from_file_stem file_stem.data with
  | none => some cc
  | some r =>
    let subset := cc.filter (fun q => containsB (lowerChars q.2.data) r)
    if subset.isEmpty then none else some subset

/-- Step 2c of `find_best_match`: restrict by extracted size token. -/
def sizeFilter (file_stem : String) (cc : List (List Char × String)) :
    Option (List (List Char × String)) :=
  let file_size := normalize_size file_stem.data
  if file_size.isEmpty then some cc
  else
    let subset := cc.filter (fun q => normalize_size q.2.data == file_size)
    if subset.isEmpty then none else some subset

/-- Steps 2–2c of `find_best_match` composed: the surviving candidates, or
`none` when an active restriction eliminated every candidate. -/
def surviving (file_stem : String) (cc : List (List Char × String)) :
    Option (List (List Char × String)) :=
  (primaryFilter file_stem cc).bind fun c1 =>
    (regionFilter file_stem c1).bind fun c2 =>
      sizeFilter file_stem c2

/-- Step 3 of `find_best_match`: combined score (base similarity plus anchor
bonus, clamped at 100) for every surviving candidate. -/
def scoredList (file_stem : String) (cc : List (List Char × String)) : List (ℚ × String) :=
  cc.map (fun q =>
    (qmin 100 (token_set_score (normalizeL file_stem.data) q.1 + anchor_bonus file_stem.data q.2.data),
     q.2))

/-- Python `max(scores, key=lambda x: x[0])`: the first pair of maximal score
(a later pair replaces the running best only when strictly greater). -/
def pickBest : List (ℚ × String) → Option (ℚ × String)
  | [] => none
  | h :: t => some (t.foldl (fun best x => if best.1 < x.1 then x else best) h)

/-- Step 4 of `find_best_match`: the chosen name must still contain the primary
token and the region code whenever those were extracted. -/
def verifyOK (file_stem : String) (choice : String) : Bool :=
  let cl := lowerChars choice.data
  (match primary_creative_token file_stem.data with
   | none => true
   | some p => containsB cl p) &&
  (match region_from_file_stem file_stem.data with
   | none => true
   | some r => containsB cl r)

/-- `find_best_match` of `src/backend/matching.py`. -/
def find_best_match (file_stem : String) (choices : List String) (threshold : ℚ) :
    Option String × ℚ :=
  if choices.isEmpty then (none, 0)
  else
    let file_n := normalizeL file_stem.data
    let cc := choicesClean choices
    match cc.find? (fun q => q.1 == file_n) with
    | some q => (some q.2, 100)
    | none =>
      match surviving file_stem cc with
      | none => (none, 0)
      | some cc3 =>
        match pickBest (scoredList file_stem cc3) with
        | none => (none, 0)
        | some best =>
          if verifyOK file_stem best.2 then
            if 0 < threshold ∧ best.1 < threshold * 100 then (none, round1 best.1)
            else (some best.2, round1 best.1)
          else (none, 0)

/-- One output record of `match_all` (the Python dict with keys `file_stem`,
`matched_name`, `score`). -/
structure MatchResult where
  file_stem : String
  matched_name : Option String
  score : ℚ
deriving DecidableEq

/-- `match_all` of `src/backend/matching.py`. -/
def match_all (file_stems : List String) (sheet_names : List String) (threshold : ℚ) :
    List MatchResult :=
  file_stems.map fun stem =>
    let r := find_best_match stem sheet_names threshold
    ⟨stem, r.1, round1 r.2⟩

set_option maxRecDepth 200000

/-! Structural lemmas about the candidate pipeline. -/

theorem primaryFilter_mem {fs : String} {cc cc1 : List (List Char × String)}
    (h : primaryFilter fs cc = some cc1) : ∀ q ∈ cc1, q ∈ cc := by
  intro q hq
  unfold primaryFilter at h
  cases hp : primary_creative_token fs.data with
  | none => rw [hp] at h; cases h; exact hq
  | some p =>
    rw [hp] at h
    simp only at h
    split at h
    · cases h
    · cases h; exact (List.mem_filter.mp hq).1

theorem primaryFilter_keeps {fs : String} {cc cc1 : List (List Char × String)} {p : List Char}
    (h : primaryFilter fs cc = some cc1) (hp : primary_creative_token fs.data = some p) :
    ∀ q ∈ cc1, containsB (lowerChars q.2.data) p = true := by
  intro q hq
  unfold primaryFilter at h
  rw [hp] at h
  simp only at h
  split at h
  · cases h
  · cases h; exact (List.mem_filter.mp hq).2

theorem regionFilter_mem {fs : String} {cc cc1 : List (List Char × String)}
    (h : regionFilter fs cc = some cc1) : ∀ q ∈ cc1, q ∈ cc := by
  intro q hq
  unfold regionFilter at h
  cases hp : region_from_file_stem fs.data with
  | none => rw [hp] at h; cases h; exact hq
  | some r =>
    rw [hp] at h
    simp only at h
    split at h
    · cases h
    · cases h; exact (List.mem_filter.mp hq).1

theorem regionFilter_keeps {fs : String} {cc cc1 : List (List Char × String)} {r : List Char}
    (h : regionFilter fs cc = some cc1) (hr : region_from_file_stem fs.data = some r) :
    ∀ q ∈ cc1, containsB (lowerChars q.2.data) r = true := by
  intro q hq
  unfold regionFilter at h
  rw [hr] at h
  simp only at h
  split at h
  · cases h
  · cases h; exact (List.mem_filter.mp hq).2

theorem sizeFilter_mem {fs : String} {cc cc1 : List (List Char × String)}
    (h : sizeFilter fs cc = some cc1) : ∀ q ∈ cc1, q ∈ cc := by
  intro q hq
  unfold sizeFilter at h
  simp only at h
  split at h
  · cases h; exact hq
  · split at h
    · cases h
    · cases h; exact (List.mem_filter.mp hq).1

theorem surviving_mem {fs : String} {cc cc3 : List (List Char × String)}
    (h : surviving fs cc = some cc3) : ∀ q ∈ cc3, q ∈ cc := by
  intro q hq
  unfold surviving at h
  cases h1 : primaryFilter fs cc with
  | none => rw [h1] at h; cases h
  | some c1 =>
    rw [h1] at h
    simp only [Option.some_bind] at h
    cases h2 : regionFilter fs c1 with
    | none => rw [h2] at h; cases h
    | some c2 =>
      rw [h2] at h
      simp only [Option.some_bind] at h
      exact primaryFilter_mem h1 _ (regionFilter_mem h2 _ (sizeFilter_mem h _ hq))

theorem surviving_verify {fs : String} {cc cc3 : List (List Char × String)}
    (h : surviving fs cc = some cc3) : ∀ q ∈ cc3, verifyOK fs q.2 = true := by
  intro q hq
  unfold surviving at h
  cases h1 : primaryFilter fs cc with
  | none => rw [h1] at h; cases h
  | some c1 =>
    rw [h1] at h
    simp only [Option.some_bind] at h
    cases h2 : regionFilter fs c1 with
    | none => rw [h2] at h; cases h
    | some c2 =>
      rw [h2] at h
      simp only [Option.some_bind] at h
      have hq2 : q ∈ c2 := sizeFilter_mem h _ hq
      have hq1 : q ∈ c1 := regionFilter_mem h2 _ hq2
      unfold verifyOK
      simp only [Bool.and_eq_true]
      constructor
      · cases hp : primary_creative_token fs.data with
        | none => rfl
        | some p => exact primaryFilter_keeps h1 hp _ hq1
      · cases hr : region_from_file_stem fs.data with
        | none => rfl
        | some r => exact regionFilter_keeps h2 hr _ hq2

theorem pickBest_mem {l : List (ℚ × String)} {x : ℚ × String}
    (h : pickBest l = some x) : x ∈ l := by
  cases l with
  | nil => cases h
  | cons a t =>
    unfold pickBest at h
    injection h with h
    subst h
    have key : ∀ (t : List (ℚ × String)) (b : ℚ × String),
        t.foldl (fun best x => if best.1 < x.1 then x else best) b ∈ b :: t := by
      intro t
      induction t with
      | nil => intro b; simp
      | cons y t' ih =>
        intro b
        simp only [List.foldl_cons]
        have := ih (if b.1 < y.1 then y else b)
        rcases List.mem_cons.mp this with h' | h'
        · rw [h']
          split
          · simp
          · simp
        · simp [h']
    exact key t a

/-- Every returned name originates either from the exact-match branch or from
a surviving, score-picked candidate. -/
theorem find_some_origin {fs : String} {choices : List String} {t : ℚ}
    {name : String} {sc : ℚ}
    (h : find_best_match fs choices t = (some name, sc)) :
    (∃ q ∈ choicesClean choices, q.1 = normalizeL fs.data ∧ name = q.2) ∨
    (∃ cc3, surviving fs (choicesClean choices) = some cc3 ∧ ∃ q ∈ cc3, name = q.2) := by
  unfold find_best_match at h
  split at h
  · cases h
  · simp only at h
    split at h
    next q hq =>
      left
      refine ⟨q, List.mem_of_find?_eq_some hq, ?_, ?_⟩
      · have := List.find?_some hq
        exact eq_of_beq this
      · cases h; rfl
    next hq =>
      split at h
      next => cases h
      next cc3 hs =>
        split at h
        next => cases h
        next best hp =>
          right
          refine ⟨cc3, hs, ?_⟩
          have hmem := pickBest_mem hp
          unfold scoredList at hmem
          rw [List.mem_map] at hmem
          obtain ⟨q, hq3, hqe⟩ := hmem
          split at h
          · split at h
            · cases h
            · refine ⟨q, hq3, ?_⟩
              cases h
              exact congrArg Prod.snd hqe.symm
          · cases h

/-! Character-membership lemmas used to relate the region anchor to the
normalized text. -/

theorem startsWithL_subset {need hay : List Char} (h : startsWithL need hay = true) :
    ∀ c ∈ need, c ∈ hay := by
  induction need generalizing hay with
  | nil => intro c hc; cases hc
  | cons a as ih =>
    cases hay with
    | nil => cases h
    | cons b bs =>
      unfold startsWithL at h
      rw [Bool.and_eq_true] at h
      intro c hc
      rcases List.mem_cons.mp hc with rfl | hc
      · exact List.mem_cons.mpr (Or.inl (eq_of_beq h.1))
      · exact List.mem_cons.mpr (Or.inr (ih h.2 c hc))

theorem containsB_subset {hay need : List Char} (h : containsB hay need = true) :
    ∀ c ∈ need, c ∈ hay := by
  induction hay with
  | nil =>
    intro c hc
    unfold containsB at h
    cases need with
    | nil => cases hc
    | cons a as => cases h
  | cons b bs ih =>
    intro c hc
    unfold containsB at h
    rw [Bool.or_eq_true] at h
    rcases h with h | h
    · exact startsWithL_subset h c hc
    · exact List.mem_cons.mpr (Or.inr (ih h c hc))

theorem hasPatGo_subset {lit : List Char} {pre post : Bool} :
    ∀ (prev : Option Char) (hay : List Char), hasPatGo lit pre post prev hay = true →
      ∀ c ∈ lit, c ∈ hay := by
  intro prev hay
  induction hay generalizing prev with
  | nil =>
    intro h c hc
    unfold hasPatGo at h
    rw [Bool.and_eq_true, Bool.and_eq_true] at h
    have := startsWithL_subset h.1.2 c hc
    cases this
  | cons b bs ih =>
    intro h c hc
    unfold hasPatGo at h
    rw [Bool.or_eq_true] at h
    rcases h with h | h
    · rw [Bool.and_eq_true, Bool.and_eq_true] at h
      exact startsWithL_subset h.1.2 c hc
    · exact List.mem_cons.mpr (Or.inr (ih (some b) h c hc))

theorem hasPat_subset {hay lit : List Char} {pre post : Bool}
    (h : hasPat hay lit pre post = true) : ∀ c ∈ lit, c ∈ hay :=
  hasPatGo_subset none hay h

/-- When the extracted region is the Belgian-French code, the lower-cased stem
contains the letter `f` (every pattern that can produce it contains an `f`). -/
theorem region_befr_mem_f {l : List Char}
    (h : region_from_file_stem l = some "befr".data) : 'f' ∈ lowerChars l := by
  simp only [region_from_file_stem] at h
  split_ifs at h with h1 h2 h3 h4 h5
  · exact containsB_subset h1 'f' (by decide)
  · exfalso
    have := Option.some.inj h
    exact absurd this (by decide)
  · rw [Bool.or_eq_true, Bool.or_eq_true, Bool.or_eq_true, Bool.or_eq_true] at h3
    rcases h3 with (((h' | h') | h') | h') | h'
    · exact hasPat_subset h' 'f' (by decide)
    · exact hasPat_subset h' 'f' (by decide)
    · exact hasPat_subset h' 'f' (by decide)
    · exact hasPat_subset h' 'f' (by decide)
    · exact hasPat_subset h' 'f' (by decide)
  · exfalso
    have := Option.some.inj h
    exact absurd this (by decide)
  · exfalso
    have := Option.some.inj h
    exact absurd this (by decide)

theorem mem_dropWhile {c : Char} {p : Char → Bool} {l : List Char}
    (hc : p c = false) (h : c ∈ l) : c ∈ l.dropWhile p := by
  induction l with
  | nil => cases h
  | cons a t ih =>
    rcases List.mem_cons.mp h with rfl | h
    · rw [List.dropWhile_cons, hc]
      simp
    · rw [List.dropWhile_cons]
      split
      · exact ih h
      · exact List.mem_cons.mpr (Or.inr h)

theorem mem_stripList {c : Char} {l : List Char}
    (hc : pySpace c = false) (h : c ∈ l) : c ∈ stripList l := by
  unfold stripList
  rw [List.mem_reverse]
  exact mem_dropWhile hc (List.mem_reverse.mpr (mem_dropWhile hc h))

theorem mem_joinSpace_head {c : Char} {w : List Char} {ws : List (List Char)}
    (h : c ∈ w) : c ∈ joinSpace (w :: ws) := by
  cases ws with
  | nil => exact h
  | cons w2 t =>
    unfold joinSpace
    exact List.mem_append.mpr (Or.inl h)

theorem mem_joinSpace_tail {c : Char} {w : List Char} {ws : List (List Char)}
    (h : c ∈ joinSpace ws) : c ∈ joinSpace (w :: ws) := by
  cases ws with
  | nil => cases h
  | cons w2 t =>
    unfold joinSpace
    exact List.mem_append.mpr (Or.inr (List.mem_cons.mpr (Or.inr h)))

theorem mem_joinSpace_splitWsGo {c : Char} (hc : pySpace c = false) :
    ∀ (l cur : List Char), (c ∈ l ∨ c ∈ cur) → c ∈ joinSpace (splitWsGo l cur) := by
  intro l
  induction l with
  | nil =>
    intro cur h
    rcases h with h | h
    · cases h
    · unfold splitWsGo
      have : cur.isEmpty = false := by
        cases cur with
        | nil => cases h
        | cons a t => rfl
      rw [this]
      simp only [Bool.false_eq_true, if_false]
      exact mem_joinSpace_head (List.mem_reverse.mpr h)
  | cons a t ih =>
    intro cur h
    unfold splitWsGo
    by_cases ha : pySpace a = true
    · rw [ha]
      simp only [if_true]
      have h' : c ∈ t ∨ c ∈ cur := by
        rcases h with h | h
        · rcases List.mem_cons.mp h with rfl | h
          · rw [ha] at hc; cases hc
          · exact Or.inl h
        · exact Or.inr h
      rcases h' with h' | h'
      · have hrec : c ∈ joinSpace (splitWsGo t []) := ih [] (Or.inl h')
        split
        · exact hrec
        · exact mem_joinSpace_tail hrec
      · have hcur : cur.isEmpty = false := by
          cases cur with
          | nil => cases h'
          | cons x xs => rfl
        rw [hcur]
        simp only [Bool.false_eq_true, if_false]
        exact mem_joinSpace_head (List.mem_reverse.mpr h')
    · rw [Bool.not_eq_true] at ha
      rw [ha]
      simp only [Bool.false_eq_true, if_false]
      apply ih (a :: cur)
      rcases h with h | h
      · rcases List.mem_cons.mp h with rfl | h
        · exact Or.inr (List.mem_cons.mpr (Or.inl rfl))
        · exact Or.inl h
      · exact Or.inr (List.mem_cons.mpr (Or.inr h))

theorem mem_normalizeL {c : Char} {l : List Char}
    (hsp : pySpace c = false) (hsep : isSep c = false) (h : c ∈ lowerChars l) :
    c ∈ normalizeL l := by
  unfold normalizeL splitWs
  apply mem_joinSpace_splitWsGo hsp
  left
  have h1 : c ∈ stripList (lowerChars l) := mem_stripList hsp h
  unfold replaceSeps
  have h2 := List.mem_map_of_mem (fun c => if isSep c then ' ' else c) h1
  simp only [hsep, Bool.false_eq_true, if_false] at h2
  exact h2

theorem choicesClean_mem {choices : List String} {q : List Char × String}
    (h : q ∈ choicesClean choices) : q.2 ∈ choices ∧ q.1 = normalizeL q.2.data := by
  unfold choicesClean at h
  rw [List.mem_map] at h
  obtain ⟨c, hc, rfl⟩ := h
  exact ⟨hc, rfl⟩

theorem find?_none_of_no_exact {stem : String} {choices : List String}
    (hex : ∀ c ∈ choices, normalizeL c.data ≠ normalizeL stem.data) :
    (choicesClean choices).find? (fun q => q.1 == normalizeL stem.data) = none := by
  rw [List.find?_eq_none]
  intro q hq
  have hm := choicesClean_mem hq
  rw [hm.2]
  simp only [beq_iff_eq]
  exact hex q.2 hm.1

/-- C1: if the stem has no exact normalized match among a non-empty canonical
list and some active anchor restriction (primary token, region, or size)
eliminates every surviving candidate, `find_best_match` returns no match with
score exactly 0. -/
theorem C1_active_restriction_no_match (stem : String) (choices : List String) (t : ℚ)
    (hne : choices ≠ [])
    (hex : ∀ c ∈ choices, normalizeL c.data ≠ normalizeL stem.data)
    (hs : surviving stem (choicesClean choices) = none) :
    find_best_match stem choices t = (none, 0) := by
  have hie : choices.isEmpty = false := by
    cases choices with
    | nil => exact absurd rfl hne
    | cons a l => rfl
  simp only [find_best_match, hie, Bool.false_eq_true, if_false,
    find?_none_of_no_exact hex, hs]

/-- Witness for C1: the primary token `broodmix` occurs in no canonical name,
so the chain terminates with no match and score 0. -/
theorem C1_witness :
    (["Cilou_300x250_BEFR"] : List String) ≠ [] ∧
    (∀ c ∈ (["Cilou_300x250_BEFR"] : List String),
      normalizeL c.data ≠ normalizeL "Broodmix_300x250".data) ∧
    surviving "Broodmix_300x250" (choicesClean ["Cilou_300x250_BEFR"]) = none ∧
    find_best_match "Broodmix_300x250" ["Cilou_300x250_BEFR"] 0 = (none, 0) :=
  ⟨by decide, by decide, by decide,
    C1_active_restriction_no_match "Broodmix_300x250" ["Cilou_300x250_BEFR"] 0
      (by decide) (by decide) (by decide)⟩

/-- C2: if the normalized stem equals the normalized form of some canonical
name, `find_best_match` returns such a canonical name with score exactly 100,
for every threshold. -/
theorem C2_exact_short_circuit (stem : String) (choices : List String) (t : ℚ)
    (h : ∃ c ∈ choices, normalizeL c.data = normalizeL stem.data) :
    ∃ c ∈ choices, normalizeL c.data = normalizeL stem.data ∧
      find_best_match stem choices t = (some c, 100) := by
  obtain ⟨c0, hc0, he0⟩ := h
  have hie : choices.isEmpty = false := by
    cases choices with
    | nil => cases hc0
    | cons a l => rfl
  have hsome : ((choicesClean choices).find? (fun q => q.1 == normalizeL stem.data)).isSome := by
    rw [List.find?_isSome]
    refine ⟨(normalizeL c0.data, c0), ?_, ?_⟩
    · unfold choicesClean
      exact List.mem_map_of_mem _ hc0
    · simpa using he0
  obtain ⟨q, hq⟩ := Option.isSome_iff_exists.mp hsome
  have hqm := choicesClean_mem (List.mem_of_find?_eq_some hq)
  have hqp0 := List.find?_some hq
  have hqp : q.1 = normalizeL stem.data := by
    simp only [beq_iff_eq] at hqp0
    exact hqp0
  refine ⟨q.2, hqm.1, ?_, ?_⟩
  · rw [← hqm.2, hqp]
  · simp only [find_best_match, hie, Bool.false_eq_true, if_false, hq]

/-- Witness for C2: `"A b"` normalizes like `"a_b"`, and the exact branch fires
even with threshold 1. -/
theorem C2_witness :
    (∃ c ∈ (["zzz", "a_b"] : List String), normalizeL c.data = normalizeL "A b".data) ∧
    ∃ c ∈ (["zzz", "a_b"] : List String), normalizeL c.data = normalizeL "A b".data ∧
      find_best_match "A b" ["zzz", "a_b"] 1 = (some c, 100) :=
  ⟨by decide, C2_exact_short_circuit "A b" ["zzz", "a_b"] 1 (by decide)⟩

/-- C9: whenever the returned matched name is present it is literally one of
the strings of the input canonical list. -/
theorem C9_name_verbatim {stem name : String} {choices : List String} {t sc : ℚ}
    (h : find_best_match stem choices t = (some name, sc)) : name ∈ choices := by
  rcases find_some_origin h with ⟨q, hq, _, hname⟩ | ⟨cc3, hs, q, hq3, hname⟩
  · rw [hname]
    exact (choicesClean_mem hq).1
  · rw [hname]
    exact (choicesClean_mem (surviving_mem hs q hq3)).1

/-- Witness for C9 at a concrete resolution. -/
theorem C9_witness :
    find_best_match "a b" ["a_b"] 0 = (some "a_b", 100) ∧ "a_b" ∈ (["a_b"] : List String) :=
  ⟨by decide, C9_name_verbatim
    (show find_best_match "a b" ["a_b"] 0 = (some "a_b", 100) by decide)⟩

/-- C10: with a non-positive threshold the threshold rule never fires: when
candidates survive filtering, a matched name is returned even at score 0. -/
theorem C10_nonpositive_threshold_keeps_match (stem : String) (choices : List String)
    (t : ℚ) (cc3 : List (List Char × String))
    (ht : t ≤ 0) (hs : surviving stem (choicesClean choices) = some cc3) (hcc : cc3 ≠ []) :
    ((find_best_match stem choices t).1).isSome = true := by
  obtain ⟨q0, hq0⟩ : ∃ q, q ∈ cc3 := by
    cases cc3 with
    | nil => exact absurd rfl hcc
    | cons a l => exact ⟨a, List.mem_cons_self a l⟩
  have hmem := choicesClean_mem (surviving_mem hs q0 hq0)
  have hie : choices.isEmpty = false := by
    cases choices with
    | nil => cases hmem.1
    | cons a l => rfl
  cases hf : (choicesClean choices).find? (fun q => q.1 == normalizeL stem.data) with
  | some q =>
    simp only [find_best_match, hie, Bool.false_eq_true, if_false, hf, Option.isSome_some]
  | none =>
    obtain ⟨a, tl, rfl⟩ : ∃ a tl, cc3 = a :: tl := by
      cases cc3 with
      | nil => exact absurd rfl hcc
      | cons a l => exact ⟨a, l, rfl⟩
    have hpick : ∃ best, pickBest (scoredList stem (a :: tl)) = some best := by
      unfold scoredList pickBest
      rw [List.map_cons]
      exact ⟨_, rfl⟩
    obtain ⟨best, hp⟩ := hpick
    have hbm := pickBest_mem hp
    unfold scoredList at hbm
    rw [List.mem_map] at hbm
    obtain ⟨q, hq3, hqe⟩ := hbm
    have hv : verifyOK stem best.2 = true := by
      have h2 : best.2 = q.2 := congrArg Prod.snd hqe.symm
      rw [h2]
      exact surviving_verify hs q hq3
    have hnt : ¬(0 < t ∧ best.1 < t * 100) := fun hc => absurd hc.1 (not_lt.mpr ht)
    simp only [find_best_match, hie, Bool.false_eq_true, if_false, hf, hs, hp, hv,
      if_true, if_neg hnt, Option.isSome_some]

/-- Witness for C10: the empty stem scores 0 against the single candidate but
is still matched at threshold 0. -/
theorem C10_witness :
    (0 : ℚ) ≤ 0 ∧
    surviving "" (choicesClean ["abc"]) = some (choicesClean ["abc"]) ∧
    choicesClean ["abc"] ≠ [] ∧
    ((find_best_match "" ["abc"] 0).1).isSome = true :=
  ⟨le_refl 0, by decide, by decide,
    C10_nonpositive_threshold_keeps_match "" ["abc"] 0 (choicesClean ["abc"])
      (le_refl 0) (by decide) (by decide)⟩

/-- C3 counterexample: on the end-to-end example of the spec the engine does
resolve to the canonical name, but the combined score is 78.6, below the
claimed bound of 90 (base token-set similarity 6800/107 plus the full +15
anchor bonus, rounded to one decimal). -/
theorem C3_counterexample :
    (find_best_match "Eng_NCL_Q1_Standard_IAB_728x90_NA_IRCHAMPAGNEGLASS_"
      ["UnitedKingdom_Q12026_Yahoo_Google_IRCHAMPAGNEGLASS_728x90"] 0).2 < 90 := by
  decide

/-- C3 (amended): the end-to-end example resolves to the single canonical name
with score exactly 78.6. -/
theorem C3_end_to_end :
    find_best_match "Eng_NCL_Q1_Standard_IAB_728x90_NA_IRCHAMPAGNEGLASS_"
      ["UnitedKingdom_Q12026_Yahoo_Google_IRCHAMPAGNEGLASS_728x90"] 0
    = (some "UnitedKingdom_Q12026_Yahoo_Google_IRCHAMPAGNEGLASS_728x90", 393/5) := by
  decide

/-- C4 counterexample: with stem `"ab,cde"` the primary token `abcde` is
extracted and no canonical name contains it, yet the exact-match branch fires
first (the comma survives normalization on both sides) and returns a match
with score 100 instead of no-match with score 0. -/
theorem C4_counterexample :
    primary_creative_token "ab,cde".data = some "abcde".data ∧
    (∀ c ∈ (["AB,CDE"] : List String), containsB (lowerChars c.data) "abcde".data = false) ∧
    find_best_match "ab,cde" ["AB,CDE"] 0 = (some "AB,CDE", 100) := by
  refine ⟨by decide, by decide, by decide⟩

/-- C4 (amended): if a primary token is extracted, no canonical name contains
it case-insensitively, and the stem has no exact normalized match, then the
result is no-match with score 0. -/
theorem C4_filter_soundness (stem : String) (choices : List String) (t : ℚ) (p : List Char)
    (hp : primary_creative_token stem.data = some p)
    (hnc : ∀ c ∈ choices, containsB (lowerChars c.data) p = false)
    (hex : ∀ c ∈ choices, normalizeL c.data ≠ normalizeL stem.data) :
    find_best_match stem choices t = (none, 0) := by
  cases hie : choices.isEmpty with
  | true => simp only [find_best_match, hie, if_true]
  | false =>
    have hpf : primaryFilter stem (choicesClean choices) = none := by
      unfold primaryFilter
      rw [hp]
      have hfil : (choicesClean choices).filter
          (fun q => containsB (lowerChars q.2.data) p) = [] := by
        rw [List.filter_eq_nil_iff]
        intro q hq
        have hm := choicesClean_mem hq
        simp [hnc q.2 hm.1]
      simp only [hfil]
      rfl
    have hs : surviving stem (choicesClean choices) = none := by
      unfold surviving
      rw [hpf]
      rfl
    simp only [find_best_match, hie, Bool.false_eq_true, if_false,
      find?_none_of_no_exact hex, hs]

/-- Witness for C4 (amended). -/
theorem C4_witness :
    primary_creative_token "Broodmix".data = some "broodmix".data ∧
    (∀ c ∈ (["Cilou_BEFR"] : List String),
      containsB (lowerChars c.data) "broodmix".data = false) ∧
    (∀ c ∈ (["Cilou_BEFR"] : List String),
      normalizeL c.data ≠ normalizeL "Broodmix".data) ∧
    find_best_match "Broodmix" ["Cilou_BEFR"] 0 = (none, 0) :=
  ⟨by decide, by decide, by decide,
    C4_filter_soundness "Broodmix" ["Cilou_BEFR"] 0 "broodmix".data
      (by decide) (by decide) (by decide)⟩

/-- C5 counterexample: the stem `"Brand_BENL_FR_Display"` contains the
substring `"_FR_"`, yet the explicit `benl` code takes priority in the region
extractor and the engine resolves to the BENL canonical name. -/
theorem C5_counterexample :
    containsB "Brand_BENL_FR_Display".data "_FR_".data = true ∧
    find_best_match "Brand_BENL_FR_Display" ["Brand_BEFR_Display", "Brand_BENL_Display"] 0
      = (some "Brand_BENL_Display", 100) :=
  ⟨by decide, by decide⟩

/-- C5 (amended): whenever the region extractor derives the Belgian-French
code from the stem, `find_best_match` against the two brand names never
returns the BENL name (the region filter and the final verification both
require the chosen name to contain `befr`, and the exact-match branch cannot
produce the BENL name because its normalized form contains no `f` while every
`befr`-producing pattern requires one). -/
theorem C5_region_guard (stem : String) (t : ℚ)
    (h : region_from_file_stem stem.data = some "befr".data) :
    (find_best_match stem ["Brand_BEFR_Display", "Brand_BENL_Display"] t).1
      ≠ some "Brand_BENL_Display" := by
  intro heq
  have hpair : find_best_match stem ["Brand_BEFR_Display", "Brand_BENL_Display"] t
      = (some "Brand_BENL_Display",
         (find_best_match stem ["Brand_BEFR_Display", "Brand_BENL_Display"] t).2) := by
    rw [← heq]
  rcases find_some_origin hpair with ⟨q, hq, hq1, hq2⟩ | ⟨cc3, hs, q, hq3, hq2⟩
  · have hqeq : q.1 = normalizeL "Brand_BENL_Display".data := by
      unfold choicesClean at hq
      simp only [List.map_cons, List.map_nil, List.mem_cons, List.not_mem_nil,
        or_false] at hq
      rcases hq with h1 | h1
      · exfalso
        rw [h1] at hq2
        exact absurd hq2 (by decide)
      · rw [h1]
    have hnorm : normalizeL stem.data = normalizeL "Brand_BENL_Display".data := by
      rw [← hq1, hqeq]
    have hfmem : 'f' ∈ normalizeL stem.data :=
      mem_normalizeL (by decide) (by decide) (region_befr_mem_f h)
    rw [hnorm] at hfmem
    exact absurd hfmem (by decide)
  · have hv := surviving_verify hs q hq3
    rw [← hq2] at hv
    unfold verifyOK at hv
    rw [h] at hv
    simp only [Bool.and_eq_true] at hv
    exact absurd hv.2 (by decide)

/-- Witness for C5 (amended): `"Brand_FR"` has extracted region `befr`. -/
theorem C5_witness :
    region_from_file_stem "Brand_FR".data = some "befr".data ∧
    (find_best_match "Brand_FR" ["Brand_BEFR_Display", "Brand_BENL_Display"] 0).1
      ≠ some "Brand_BENL_Display" :=
  ⟨by decide, C5_region_guard "Brand_FR" 0 (by decide)⟩

/-- C6: when a positive threshold is supplied and the best surviving combined
score is strictly below threshold × 100, the result is no-match but the score
reported is the computed best score rounded to one decimal, not 0. -/
theorem C6_subthreshold_reports_score (stem : String) (choices : List String) (t : ℚ)
    (cc3 : List (List Char × String)) (best : ℚ × String)
    (hex : ∀ c ∈ choices, normalizeL c.data ≠ normalizeL stem.data)
    (hs : surviving stem (choicesClean choices) = some cc3)
    (hp : pickBest (scoredList stem cc3) = some best)
    (ht : 0 < t) (hlt : best.1 < t * 100) :
    find_best_match stem choices t = (none, round1 best.1) := by
  have hbm := pickBest_mem hp
  unfold scoredList at hbm
  rw [List.mem_map] at hbm
  obtain ⟨q, hq3, hqe⟩ := hbm
  have hmem := choicesClean_mem (surviving_mem hs q hq3)
  have hie : choices.isEmpty = false := by
    cases choices with
    | nil => cases hmem.1
    | cons a l => rfl
  have hv : verifyOK stem best.2 = true := by
    have h2 : best.2 = q.2 := congrArg Prod.snd hqe.symm
    rw [h2]
    exact surviving_verify hs q hq3
  simp only [find_best_match, hie, Bool.false_eq_true, if_false,
    find?_none_of_no_exact hex, hs, hp, hv, if_true, if_pos (And.intro ht hlt)]

/-- Witness for C6: score 83.5 against threshold 0.9 is reported as 83.5
(not 0) with no match. -/
theorem C6_witness :
    (∀ c ∈ (["abcdef_xy"] : List String),
      normalizeL c.data ≠ normalizeL "abcdef zz".data) ∧
    surviving "abcdef zz" (choicesClean ["abcdef_xy"]) = some (choicesClean ["abcdef_xy"]) ∧
    pickBest (scoredList "abcdef zz" (choicesClean ["abcdef_xy"]))
      = some (167/2, "abcdef_xy") ∧
    (0 : ℚ) < 9/10 ∧ (167/2 : ℚ) < 9/10 * 100 ∧
    round1 ((167 : ℚ)/2) = 167/2 ∧ ((167 : ℚ)/2) ≠ 0 ∧
    find_best_match "abcdef zz" ["abcdef_xy"] (9/10) = (none, round1 ((167 : ℚ)/2)) :=
  ⟨by decide, by decide, by decide, by decide, by decide, by decide, by decide,
    C6_subthreshold_reports_score "abcdef zz" ["abcdef_xy"] (9/10)
      (choicesClean ["abcdef_xy"]) ((167 : ℚ)/2, "abcdef_xy")
      (by decide) (by decide) (by decide) (by decide) (by decide)⟩

theorem pyRound_intCast (k : ℤ) : pyRound ((k : ℤ) : ℚ) = k := by
  have hb : ((k : ℚ)).floor = k := by
    have h : ⌊((k : ℤ) : ℚ)⌋ = k := Int.floor_intCast k
    exact h
  simp only [pyRound, hb, sub_self]
  norm_num

theorem round1_idem (q : ℚ) : round1 (round1 q) = round1 q := by
  unfold round1
  have h10 : (10 : ℚ) * (((pyRound (10 * q) : ℤ) : ℚ) / 10) = ((pyRound (10 * q) : ℤ) : ℚ) := by
    ring
  rw [h10, pyRound_intCast]

/-- Every score returned by `find_best_match` is 0, 100, or a one-decimal
rounding — hence rounding it again changes nothing. -/
theorem find_best_match_score_shape (stem : String) (choices : List String) (t : ℚ) :
    (find_best_match stem choices t).2 = 0 ∨ (find_best_match stem choices t).2 = 100 ∨
    ∃ q, (find_best_match stem choices t).2 = round1 q := by
  unfold find_best_match
  split
  · exact Or.inl rfl
  · dsimp only
    split
    · exact Or.inr (Or.inl rfl)
    · split
      · exact Or.inl rfl
      · split
        · exact Or.inl rfl
        · split
          · split
            · exact Or.inr (Or.inr ⟨_, rfl⟩)
            · exact Or.inr (Or.inr ⟨_, rfl⟩)
          · exact Or.inl rfl

theorem round1_find_best_match (stem : String) (choices : List String) (t : ℚ) :
    round1 (find_best_match stem choices t).2 = (find_best_match stem choices t).2 := by
  rcases find_best_match_score_shape stem choices t with h | h | ⟨q, h⟩
  · rw [h]; decide
  · rw [h]; decide
  · rw [h, round1_idem]

/-- C8: `match_all` produces exactly one result per input stem, in input order,
and each result carries the matched name and score of `find_best_match`
applied to that stem alone — no cross-stem state. -/
theorem C8_batch_pointwise (stems names : List String) (t : ℚ) :
    match_all stems names t = stems.map (fun s =>
      { file_stem := s,
        matched_name := (find_best_match s names t).1,
        score := (find_best_match s names t).2 }) := by
  unfold match_all
  apply List.map_congr_left
  intro s _
  simp only [round1_find_best_match]

/-! Lemmas for the idempotence of `normalize`. -/

theorem toLower_idem (c : Char) : (Char.toLower c).toLower = Char.toLower c := by
  by_cases h : c.toNat ≥ 65 ∧ c.toNat ≤ 90
  · have hv : (c.toNat + 32).isValidChar := Or.inl (by omega)
    have ht : (Char.ofNat (c.toNat + 32)).toNat = c.toNat + 32 := by
      rw [Char.ofNat, dif_pos hv]
      rfl
    have hcond : ¬((Char.ofNat (c.toNat + 32)).toNat ≥ 65 ∧
        (Char.ofNat (c.toNat + 32)).toNat ≤ 90) := by
      rw [ht]
      omega
    simp only [Char.toLower, if_pos h, if_neg hcond]
  · simp only [Char.toLower, if_neg h]

theorem splitWsGo_words {l : List Char} :
    ∀ {cur : List Char}, (∀ c ∈ cur, pySpace c = false) →
      ∀ w ∈ splitWsGo l cur, w ≠ [] ∧ ∀ c ∈ w, pySpace c = false := by
  induction l with
  | nil =>
    intro cur hcur w hw
    unfold splitWsGo at hw
    split at hw
    · cases hw
    next hne =>
      rcases List.mem_cons.mp hw with rfl | hw
      · constructor
        · intro hcontra
          apply hne
          rw [← List.reverse_reverse cur, hcontra]
          rfl
        · intro c hc
          exact hcur c (List.mem_reverse.mp hc)
      · cases hw
  | cons a t ih =>
    intro cur hcur w hw
    unfold splitWsGo at hw
    by_cases ha : pySpace a = true
    · rw [if_pos ha] at hw
      split at hw
      · exact ih (fun c hc => by cases hc) w hw
      next hne =>
        rcases List.mem_cons.mp hw with rfl | hw
        · constructor
          · intro hcontra
            apply hne
            rw [← List.reverse_reverse cur, hcontra]
            rfl
          · intro c hc
            exact hcur c (List.mem_reverse.mp hc)
        · exact ih (fun c hc => by cases hc) w hw
    · rw [if_neg ha] at hw
      refine ih ?_ w hw
      intro c hc
      rcases List.mem_cons.mp hc with rfl | hc
      · rw [Bool.not_eq_true] at ha
        exact ha
      · exact hcur c hc

theorem splitWsGo_chars {l : List Char} :
    ∀ {cur : List Char}, ∀ w ∈ splitWsGo l cur, ∀ c ∈ w, c ∈ l ∨ c ∈ cur := by
  induction l with
  | nil =>
    intro cur w hw c hc
    unfold splitWsGo at hw
    split at hw
    · cases hw
    · rcases List.mem_cons.mp hw with rfl | hw
      · exact Or.inr (List.mem_reverse.mp hc)
      · cases hw
  | cons a t ih =>
    intro cur w hw c hc
    unfold splitWsGo at hw
    by_cases ha : pySpace a = true
    · rw [if_pos ha] at hw
      split at hw
      · rcases ih w hw c hc with h | h
        · exact Or.inl (List.mem_cons.mpr (Or.inr h))
        · cases h
      · rcases List.mem_cons.mp hw with rfl | hw
        · exact Or.inr (List.mem_reverse.mp hc)
        · rcases ih w hw c hc with h | h
          · exact Or.inl (List.mem_cons.mpr (Or.inr h))
          · cases h
    · rw [if_neg ha] at hw
      rcases ih w hw c hc with h | h
      · exact Or.inl (List.mem_cons.mpr (Or.inr h))
      · rcases List.mem_cons.mp h with rfl | h
        · exact Or.inl (List.mem_cons.mpr (Or.inl rfl))
        · exact Or.inr h

theorem splitWsGo_append :
    ∀ (w l cur : List Char), (∀ c ∈ w, pySpace c = false) →
      splitWsGo (w ++ l) cur = splitWsGo l (w.reverse ++ cur) := by
  intro w
  induction w with
  | nil => intro l cur _; rfl
  | cons a as ih =>
    intro l cur hw
    have ha : pySpace a = false := hw a (List.mem_cons.mpr (Or.inl rfl))
    have step : splitWsGo ((a :: as) ++ l) cur = splitWsGo (as ++ l) (a :: cur) := by
      show splitWsGo (a :: (as ++ l)) cur = _
      conv_lhs => unfold splitWsGo
      rw [ha]
      simp only [Bool.false_eq_true, if_false]
    rw [step, ih l (a :: cur) (fun c hc => hw c (List.mem_cons.mpr (Or.inr hc)))]
    congr 1
    rw [List.reverse_cons, List.append_assoc]
    rfl

theorem joinSpace_ne_nil {ws : List (List Char)} (h0 : ws ≠ [])
    (hne : ∀ w ∈ ws, w ≠ []) : joinSpace ws ≠ [] := by
  cases ws with
  | nil => exact absurd rfl h0
  | cons w t =>
    cases t with
    | nil => exact hne w (List.mem_cons.mpr (Or.inl rfl))
    | cons w2 t2 =>
      show w ++ ' ' :: joinSpace (w2 :: t2) ≠ []
      intro hcontra
      rcases List.append_eq_nil.mp hcontra with ⟨_, h2⟩
      cases h2

theorem splitWs_joinSpace {ws : List (List Char)}
    (h : ∀ w ∈ ws, w ≠ [] ∧ ∀ c ∈ w, pySpace c = false) :
    splitWs (joinSpace ws) = ws := by
  induction ws with
  | nil => rfl
  | cons w t ih =>
    have hw := h w (List.mem_cons.mpr (Or.inl rfl))
    cases t with
    | nil =>
      show splitWs (joinSpace [w]) = [w]
      have hj : joinSpace [w] = w := rfl
      unfold splitWs
      rw [hj, ← List.append_nil w, splitWsGo_append w [] [] hw.2]
      unfold splitWsGo
      have hne : (w.reverse ++ []).isEmpty = false := by
        rw [List.append_nil]
        cases hrw : w.reverse with
        | nil =>
          exfalso
          apply hw.1
          rw [← List.reverse_reverse w, hrw]
          rfl
        | cons x xs => rfl
      rw [List.append_nil] at hne ⊢
      rw [hne]
      simp
    | cons w2 t2 =>
      have hj : joinSpace (w :: w2 :: t2) = w ++ ' ' :: joinSpace (w2 :: t2) := rfl
      unfold splitWs
      rw [hj, splitWsGo_append w (' ' :: joinSpace (w2 :: t2)) [] hw.2]
      unfold splitWsGo
      have hsp : pySpace ' ' = true := rfl
      rw [hsp]
      simp only [if_true]
      have hne : (w.reverse ++ []).isEmpty = false := by
        rw [List.append_nil]
        cases hrw : w.reverse with
        | nil =>
          exfalso
          apply hw.1
          rw [← List.reverse_reverse w, hrw]
          rfl
        | cons x xs => rfl
      rw [hne]
      simp only [Bool.false_eq_true, if_false]
      rw [List.append_nil, List.reverse_reverse]
      congr 1
      exact ih (fun w' hw' => h w' (List.mem_cons.mpr (Or.inr hw')))

theorem mem_joinSpace_cases {c : Char} {ws : List (List Char)}
    (h : c ∈ joinSpace ws) : c = ' ' ∨ ∃ w ∈ ws, c ∈ w := by
  induction ws with
  | nil => cases h
  | cons w t ih =>
    cases t with
    | nil => exact Or.inr ⟨w, List.mem_cons.mpr (Or.inl rfl), h⟩
    | cons w2 t2 =>
      have hj : joinSpace (w :: w2 :: t2) = w ++ ' ' :: joinSpace (w2 :: t2) := rfl
      rw [hj] at h
      rcases List.mem_append.mp h with h | h
      · exact Or.inr ⟨w, List.mem_cons.mpr (Or.inl rfl), h⟩
      · rcases List.mem_cons.mp h with rfl | h
        · exact Or.inl rfl
        · rcases ih h with h | ⟨w', hw', hc⟩
          · exact Or.inl h
          · exact Or.inr ⟨w', List.mem_cons.mpr (Or.inr hw'), hc⟩

theorem mem_of_stripList {c : Char} {l : List Char} (h : c ∈ stripList l) : c ∈ l := by
  unfold stripList at h
  rw [List.mem_reverse] at h
  have h2 := (List.dropWhile_sublist pySpace).subset h
  rw [List.mem_reverse] at h2
  exact (List.dropWhile_sublist pySpace).subset h2

theorem head?_append_left {l l2 : List Char} (h : l ≠ []) :
    (l ++ l2).head? = l.head? := by
  cases l with
  | nil => exact absurd rfl h
  | cons a t => rfl

theorem joinSpace_head {ws : List (List Char)}
    (h : ∀ w ∈ ws, w ≠ [] ∧ ∀ c ∈ w, pySpace c = false) :
    ∀ c, (joinSpace ws).head? = some c → pySpace c = false := by
  cases ws with
  | nil => intro c hc; cases hc
  | cons w t =>
    intro c hc
    have hw := h w (List.mem_cons.mpr (Or.inl rfl))
    have hcw : c ∈ w := by
      cases t with
      | nil =>
        cases w with
        | nil => cases hc
        | cons a t' =>
          injection hc with hc
          rw [← hc]
          exact List.mem_cons.mpr (Or.inl rfl)
      | cons w2 t2 =>
        have hj : joinSpace (w :: w2 :: t2) = w ++ ' ' :: joinSpace (w2 :: t2) := rfl
        rw [hj, head?_append_left hw.1] at hc
        cases w with
        | nil => cases hc
        | cons a t' =>
          injection hc with hc
          rw [← hc]
          exact List.mem_cons.mpr (Or.inl rfl)
    exact hw.2 c hcw

theorem joinSpace_revHead {ws : List (List Char)}
    (h : ∀ w ∈ ws, w ≠ [] ∧ ∀ c ∈ w, pySpace c = false) :
    ∀ c, ((joinSpace ws).reverse).head? = some c → pySpace c = false := by
  induction ws with
  | nil => intro c hc; cases hc
  | cons w t ih =>
    intro c hc
    have hw := h w (List.mem_cons.mpr (Or.inl rfl))
    cases t with
    | nil =>
      have hcw : c ∈ w := by
        cases hrev : w.reverse with
        | nil =>
          rw [show joinSpace [w] = w from rfl, hrev] at hc
          cases hc
        | cons a t' =>
          rw [show joinSpace [w] = w from rfl, hrev] at hc
          injection hc with hc
          rw [← hc]
          rw [← List.mem_reverse, hrev]
          exact List.mem_cons.mpr (Or.inl rfl)
      exact hw.2 c hcw
    | cons w2 t2 =>
      have hj : joinSpace (w :: w2 :: t2) = w ++ ' ' :: joinSpace (w2 :: t2) := rfl
      rw [hj, List.reverse_append, List.reverse_cons] at hc
      have hne : (joinSpace (w2 :: t2)).reverse ≠ [] := by
        intro hcontra
        apply @joinSpace_ne_nil (w2 :: t2) (by intro hcc; cases hcc)
          (fun w' hw' => (h w' (List.mem_cons.mpr (Or.inr hw'))).1)
        rw [← List.reverse_reverse (joinSpace (w2 :: t2)), hcontra]
        rfl
      rw [head?_append_left (by
        intro hcontra
        rcases List.append_eq_nil.mp hcontra with ⟨h1, _⟩
        exact hne h1), head?_append_left hne] at hc
      exact ih (fun w' hw' => h w' (List.mem_cons.mpr (Or.inr hw'))) c hc

theorem normalizeL_words :
    ∀ (l : List Char), ∀ w ∈ splitWs (replaceSeps (stripList (lowerChars l))),
      w ≠ [] ∧ ∀ c ∈ w, pySpace c = false := by
  intro l w hw
  exact splitWsGo_words (fun c hc => by cases hc) w hw

theorem normalizeL_word_chars :
    ∀ (l : List Char), ∀ w ∈ splitWs (replaceSeps (stripList (lowerChars l))),
      ∀ c ∈ w, (Char.toLower c = c ∧ isSep c = false) := by
  intro l w hw c hc
  have hcsp : pySpace c = false := (normalizeL_words l w hw).2 c hc
  have hcm : c ∈ replaceSeps (stripList (lowerChars l)) := by
    rcases splitWsGo_chars w hw c hc with h | h
    · exact h
    · cases h
  unfold replaceSeps at hcm
  rw [List.mem_map] at hcm
  obtain ⟨c0, hc0, hc0e⟩ := hcm
  by_cases hsep : isSep c0 = true
  · rw [if_pos hsep] at hc0e
    exfalso
    rw [← hc0e] at hcsp
    exact absurd hcsp (by decide)
  · rw [if_neg hsep] at hc0e
    subst hc0e
    constructor
    · have hc1 : c0 ∈ lowerChars l := mem_of_stripList hc0
      unfold lowerChars at hc1
      rw [List.mem_map] at hc1
      obtain ⟨d, _, hd⟩ := hc1
      rw [← hd, toLower_idem]
    · rw [Bool.not_eq_true] at hsep
      exact hsep

theorem normalizeL_idem (l : List Char) : normalizeL (normalizeL l) = normalizeL l := by
  have hws := normalizeL_words l
  have hchars := normalizeL_word_chars l
  have hn : normalizeL l = joinSpace (splitWs (replaceSeps (stripList (lowerChars l)))) := rfl
  have hlower : lowerChars (normalizeL l) = normalizeL l := by
    unfold lowerChars
    have hall : ∀ c ∈ normalizeL l, Char.toLower c = c := by
      intro c hc
      rw [hn] at hc
      rcases mem_joinSpace_cases hc with rfl | ⟨w, hw, hcw⟩
      · decide
      · exact (hchars w hw c hcw).1
    rw [List.map_congr_left hall]
    exact List.map_id (normalizeL l)
  have hstrip : stripList (normalizeL l) = normalizeL l := by
    unfold stripList
    have hd1 : (normalizeL l).dropWhile pySpace = normalizeL l := by
      cases hh : normalizeL l with
      | nil => rfl
      | cons a t =>
        have ha : pySpace a = false := by
          apply joinSpace_head hws a
          rw [← hn, hh]
          rfl
        rw [List.dropWhile_cons, ha]
        simp
    have hd2 : ((normalizeL l).reverse).dropWhile pySpace = (normalizeL l).reverse := by
      cases hh : (normalizeL l).reverse with
      | nil => rfl
      | cons a t =>
        have ha : pySpace a = false := by
          apply joinSpace_revHead hws a
          rw [← hn, hh]
          rfl
        rw [List.dropWhile_cons, ha]
        simp
    rw [hd1, hd2, List.reverse_reverse]
  have hrep : replaceSeps (normalizeL l) = normalizeL l := by
    unfold replaceSeps
    have hall : ∀ c ∈ normalizeL l, (if isSep c then ' ' else c) = c := by
      intro c hc
      rw [hn] at hc
      rcases mem_joinSpace_cases hc with rfl | ⟨w, hw, hcw⟩
      · decide
      · rw [(hchars w hw c hcw).2]
        simp
    rw [List.map_congr_left hall]
    exact List.map_id (normalizeL l)
  have hsplit : splitWs (normalizeL l) = splitWs (replaceSeps (stripList (lowerChars l))) := by
    rw [hn]
    exact splitWs_joinSpace hws
  have hexp : normalizeL (normalizeL l)
      = joinSpace (splitWs (replaceSeps (stripList (lowerChars (normalizeL l))))) := rfl
  rw [hexp, hlower, hstrip, hrep, hsplit, ← hn]

/-- C7: `normalize` is idempotent: normalizing an already normalized string
changes nothing. -/
theorem C7_normalize_idempotent (s : String) : normalize (normalize s) = normalize s :=
  congrArg String.mk (normalizeL_idem s.data)

end Rename

